import Mathlib

/-!
Shallow embedding of the simulated-annealing Sudoku solver
(`main.py`, with the duplicated parser logic of `parser.py`).

A grid is a total function `ℕ → ℕ → ℕ`; only the cells with row and
column index below 9 are meaningful (the 9×9 numpy array of the source).
All random draws of the source (the per-block shuffles of
`np.random.shuffle`, the region drawn by `np.random.randint`, the two
swap indices of `np.random.choice`, and the uniform acceptance sample
`np.random.rand()`) are passed in explicitly as oracle arguments, so
every run of the source program corresponds to one choice of oracles.
-/

namespace Sudoku

abbrev Grid := ℕ → ℕ → ℕ

/-- `COOLING_RATE = 0.99` (main.py line 5). -/
def COOLING_RATE : ℝ := 0.99

/-- `NUM_ITERATIONS = 2000` (main.py line 6). -/
def NUM_ITERATIONS : ℕ := 2000

/-- Row `i` of the grid, `grid[i, :]`. -/
def rowList (g : Grid) (i : ℕ) : List ℕ := (List.range 9).map (fun j => g i j)

/-- Column `j` of the grid, `grid[:, j]`. -/
def colList (g : Grid) (j : ℕ) : List ℕ := (List.range 9).map (fun i => g i j)

/-- The nine cells of the 3×3 block with block row `bi` and block column
`bj` (top-left corner `(3*bi, 3*bj)`), in row-major order — the order in
which both `np.argwhere` and the fill loops of `generate_grid` traverse
the block. -/
def blockCells (bi bj : ℕ) : List (ℕ × ℕ) :=
  [(3 * bi, 3 * bj), (3 * bi, 3 * bj + 1), (3 * bi, 3 * bj + 2),
   (3 * bi + 1, 3 * bj), (3 * bi + 1, 3 * bj + 1), (3 * bi + 1, 3 * bj + 2),
   (3 * bi + 2, 3 * bj), (3 * bi + 2, 3 * bj + 1), (3 * bi + 2, 3 * bj + 2)]

/-- The values of a block, `grid[3bi:3bi+3, 3bj:3bj+3]` flattened row-major. -/
def blockList (g : Grid) (bi bj : ℕ) : List ℕ :=
  (blockCells bi bj).map (fun p => g p.1 p.2)

/-- `len(np.unique(xs))`: the number of distinct values of a list. -/
def numDistinct (l : List ℕ) : ℕ := l.dedup.length

/-- `cost_function` (main.py lines 114–128): for each `i < 9` add
`abs(9 - len(np.unique(grid[i, :]))) + abs(9 - len(np.unique(grid[:, i])))`. -/
def cost_function (g : Grid) : ℤ :=
  ((List.range 9).map (fun i =>
    |(9 : ℤ) - (numDistinct (rowList g i) : ℤ)| +
      |(9 : ℤ) - (numDistinct (colList g i) : ℤ)|)).sum

/-- One unit check of the validator: the non-zero entries contain no
duplicate (`len(np.unique(non_zero_values)) == len(non_zero_values)`). -/
def valid_unit (l : List ℕ) : Bool :=
  numDistinct (l.filter (fun v => v ≠ 0)) = (l.filter (fun v => v ≠ 0)).length

/-- `valid_rows` (main.py lines 8–24). -/
def valid_rows (g : Grid) : Bool :=
  (List.range 9).all (fun i => valid_unit (rowList g i))

/-- `valid_cols` (main.py lines 26–42). -/
def valid_cols (g : Grid) : Bool :=
  (List.range 9).all (fun i => valid_unit (colList g i))

/-- `valid_blocks` (main.py lines 44–61); the source iterates over the
corners `(0,3,6) × (0,3,6)`, here indexed by block indices `bi, bj < 3`. -/
def valid_blocks (g : Grid) : Bool :=
  (List.range 3).all (fun bi => (List.range 3).all (fun bj =>
    valid_unit (blockList g bi bj)))

/-- `valid_sudoku` (main.py lines 63–74). -/
def valid_sudoku (g : Grid) : Bool :=
  valid_rows g && valid_cols g && valid_blocks g

/-- `set(range(1, 10)) - seen_vals` for one block, as a list in increasing
order: the digits 1–9 that do not occur in the block. -/
def missingList (g : Grid) (bi bj : ℕ) : List ℕ :=
  ((List.range 9).map (· + 1)).filter (fun d => d ∉ blockList g bi bj)

/-- The cell-filling loop of `generate_grid` on the flattened block:
walk the block values in row-major order; a non-zero value is kept, a
zero cell receives `missing_vals.pop()`, i.e. the LAST element of the
(shuffled) missing list, which is then dropped. -/
def fillList : List ℕ → List ℕ → List ℕ
  | [], _ => []
  | c :: cs, ms =>
    if c = 0 then ms.getLastD 0 :: fillList cs ms.dropLast
    else c :: fillList cs ms

/-- `generate_grid` (main.py lines 161–182).  The blocks are disjoint, so
filling them in sequence on a copy of the grid is the same as filling each
block independently; the shuffle of each block's missing-digit list is the
oracle `ms bi bj` (the source guarantees only that it is a permutation of
`missingList`).  Cell `(i, j)` lies in block `(i/3, j/3)` at row-major
offset `3*(i%3) + j%3`. -/
def generate_grid (g : Grid) (ms : ℕ → ℕ → List ℕ) : Grid :=
  fun i j =>
    (fillList (blockList g (i / 3) (j / 3)) (ms (i / 3) (j / 3))).getD
      (3 * (i % 3) + j % 3) 0

/-- The candidate swap positions of `swap_vals` (main.py lines 146–152):
`np.argwhere(block > 0)` in row-major order, with the fixed coordinates
of the block removed (the source deletes the exact row matches). -/
def unseenCoords (g : Grid) (bi bj : ℕ) (fixed : List (ℕ × ℕ)) : List (ℕ × ℕ) :=
  (blockCells bi bj).filter (fun p => decide (0 < g p.1 p.2 ∧ p ∉ fixed))

/-- `swap_vals` (main.py lines 130–158).  `np.random.choice(n, 2,
replace=False)` draws two valid indices below `n`, modelled by
`c1 % n` and `c2 % n`; when fewer than 2 candidates exist the call
raises `ValueError`, modelled as `none`.  The two chosen cells exchange
their values; the grid is otherwise unchanged. -/
def swap_vals (g : Grid) (bi bj : ℕ) (fixed : List (ℕ × ℕ)) (c1 c2 : ℕ) :
    Option Grid :=
  let unseen := unseenCoords g bi bj fixed
  if 2 ≤ unseen.length then
    let p1 := unseen.getD (c1 % unseen.length) (0, 0)
    let p2 := unseen.getD (c2 % unseen.length) (0, 0)
    some (fun i j =>
      if (i, j) = p1 then g p2.1 p2.2
      else if (i, j) = p2 then g p1.1 p1.2
      else g i j)
  else none

/-- `fixed_coords` (main.py lines 201–212): `np.argwhere(grid > 0)` over
the 9×9 grid, in row-major order. -/
def fixed_coords (g : Grid) : List (ℕ × ℕ) :=
  (((List.range 9).map (fun i => (List.range 9).map (fun j => (i, j)))).flatten).filter
    (fun p => decide (0 < g p.1 p.2))

/-- The random draws consumed by one annealing trial (main.py lines
231–242): the region pair from `np.random.randint(0, 3, 2)`, the two
swap indices from `np.random.choice`, and the uniform acceptance sample
`np.random.rand()` (which satisfies `0 ≤ r < 1`). -/
structure TrialChoice where
  region : ℕ × ℕ
  c1 : ℕ
  c2 : ℕ
  r : ℝ

/-- Outcome of one trial / of the 2000-trial inner loop: `crashed` models
the uncaught `ValueError` of `np.random.choice` inside `swap_vals`,
`solved` the early `return grid_new`, `cont` the running candidate. -/
inductive InnerRes where
  | crashed : InnerRes
  | solved : Grid → InnerRes
  | cont : Grid → InnerRes

/-- Outcome of `solve`: either the returned grid or an uncaught exception. -/
inductive SolveRes where
  | crashed : SolveRes
  | ok : Grid → SolveRes

open Classical in
/-- One annealing trial (main.py lines 232–245): copy the current grid,
perturb the drawn region (`np.random.randint(0, 3, 2)` always yields
block indices below 3, modelled by `% 3`), compute the acceptance
probability `exp((init_cost - new_cost)/temperature)`, accept when it
exceeds the uniform sample, and return `grid_new` at once if its cost
is 0. -/
noncomputable def trial (fixed : List (ℕ × ℕ)) (T : ℝ) (g : Grid)
    (ch : TrialChoice) : InnerRes :=
  match swap_vals g (ch.region.1 % 3) (ch.region.2 % 3) fixed ch.c1 ch.c2 with
  | none => .crashed
  | some gnew =>
    if ch.r < Real.exp (((cost_function g : ℝ) - (cost_function gnew : ℝ)) / T)
    then (if cost_function gnew = 0 then .solved gnew else .cont gnew)
    else .cont g

/-- The inner `for _ in range(NUM_ITERATIONS)` loop of `solve`, over the
list of that outer iteration's trial draws. -/
noncomputable def innerLoop (fixed : List (ℕ × ℕ)) (T : ℝ) :
    Grid → List TrialChoice → InnerRes
  | g, [] => .cont g
  | g, ch :: chs =>
    match trial fixed T g ch with
    | .crashed => .crashed
    | .solved gn => .solved gn
    | .cont gn => innerLoop fixed T gn chs

/-- The temperature before outer iteration `k`: the seeded value decayed
by `temperature *= COOLING_RATE` after each completed inner loop. -/
def temper (T0 : ℝ) : ℕ → ℝ
  | 0 => T0
  | k + 1 => temper T0 k * COOLING_RATE

theorem temper_eq_pow (T0 : ℝ) : ∀ k, temper T0 k = T0 * COOLING_RATE ^ k
  | 0 => by simp [temper]
  | k + 1 => by rw [temper, temper_eq_pow T0 k, pow_succ, mul_assoc]

theorem temper_le_floor_exists (T0 : ℝ) : ∃ k, temper T0 k ≤ 0.1 := by
  rcases le_or_lt T0 0.1 with h | h
  · exact ⟨0, by simpa [temper] using h⟩
  · have hT0 : (0 : ℝ) < T0 := lt_trans (by norm_num) h
    obtain ⟨k, hk⟩ :=
      exists_pow_lt_of_lt_one (div_pos (by norm_num : (0.1 : ℝ) > 0) hT0)
        (by norm_num [COOLING_RATE] : COOLING_RATE < 1)
    refine ⟨k, ?_⟩
    rw [temper_eq_pow]
    calc T0 * COOLING_RATE ^ k ≤ T0 * (0.1 / T0) := by
          exact mul_le_mul_of_nonneg_left hk.le hT0.le
      _ = 0.1 := mul_div_cancel₀ _ hT0.ne'

open Classical in
/-- The number of outer iterations the `while temperature > 0.1` loop can
run: the first `k` at which the decayed temperature is at or below the
floor. -/
noncomputable def numOuter (T0 : ℝ) : ℕ := Nat.find (temper_le_floor_exists T0)

open Classical in
/-- The outer `while temperature > 0.1` loop of `solve` (main.py lines
230–247), iteration counter `k`, with enough fuel to reach the floor.
A crash of a trial propagates (the source has no handler). -/
noncomputable def loopAux (fixed : List (ℕ × ℕ)) (chss : ℕ → ℕ → TrialChoice)
    (T0 : ℝ) : ℕ → ℕ → Grid → SolveRes
  | 0, _, g => .ok g
  | n + 1, k, g =>
    if 0.1 < temper T0 k then
      match innerLoop fixed (temper T0 k) g ((List.range NUM_ITERATIONS).map (chss k)) with
      | .crashed => .crashed
      | .solved gn => .ok gn
      | .cont gn => loopAux fixed chss T0 n (k + 1) gn
    else .ok g

/-- `np.std` (population standard deviation, `ddof = 0`). -/
noncomputable def npStd (xs : List ℝ) : ℝ :=
  Real.sqrt (((xs.map (fun x => (x - xs.sum / xs.length) ^ 2)).sum) / xs.length)

/-- `init_temperature` (main.py lines 184–199): the standard deviation of
the costs of 100 grids generated from the puzzle, the `t`-th one with the
shuffle oracle `seedMs t`. -/
noncomputable def init_temperature (g : Grid) (seedMs : ℕ → ℕ → ℕ → List ℕ) : ℝ :=
  npStd ((List.range 100).map
    (fun t => ((cost_function (generate_grid g (seedMs t)) : ℤ) : ℝ)))

/-- `solve` (main.py lines 214–249): seed the temperature, generate the
working candidate with the oracle `msW`, derive the fixed-coordinate
list from the input, and run the annealing loop, whose trial draws for
outer iteration `k` are `chss k 0, …, chss k 1999`. -/
noncomputable def solve (g : Grid) (seedMs : ℕ → ℕ → ℕ → List ℕ)
    (msW : ℕ → ℕ → List ℕ) (chss : ℕ → ℕ → TrialChoice) : SolveRes :=
  let T0 := init_temperature g seedMs
  loopAux (fixed_coords g) chss T0 (numOuter T0) 0 (generate_grid g msW)

/-- `parse_csv` (main.py lines 251–267 and parser.py lines 9–15): the
rows of the csv file are handed to `np.array(grid, dtype=int)`, which
succeeds on any rectangular list of rows — whatever their number — and
raises only on ragged input.  There is no dimension check. -/
def parse_csv (rows : List (List ℤ)) : Except String (List (List ℤ)) :=
  if rows.all (fun r => r.length = (rows.headD []).length) then .ok rows
  else .error "malformed"

/-- Block-validity: every one of the nine blocks holds each digit 1–9
exactly once. -/
def block_valid (g : Grid) : Prop :=
  ∀ bi < 3, ∀ bj < 3, (blockList g bi bj).Perm [1, 2, 3, 4, 5, 6, 7, 8, 9]

instance : DecidablePred block_valid := fun g => by
  unfold block_valid
  infer_instance

/-! Concrete instances used to exercise the theorems. -/

/-- A fully populated valid Sudoku grid (a shifted Latin square). -/
def gLatin : Grid := fun i j => (3 * i + i / 3 + j) % 9 + 1

/-- `gLatin` with the cells `(0,0)` and `(1,1)` exchanged: still
block-valid, but with duplicated values in two rows and two columns. -/
def gBroken : Grid := fun i j =>
  if (i, j) = ((0 : ℕ), (0 : ℕ)) then gLatin 1 1
  else if (i, j) = ((1 : ℕ), (1 : ℕ)) then gLatin 0 0
  else gLatin i j

/-- A puzzle whose top-left block is fully given and all other cells are
empty. -/
def pCorner : Grid := fun i j => if i < 3 ∧ j < 3 then 3 * i + j + 1 else 0

/-- The all-empty puzzle. -/
def gZero : Grid := fun _ _ => 0

/-- The identity shuffle oracle: every block uses its missing digits in
increasing order. -/
def msSorted : ℕ → ℕ → List ℕ := fun _ _ => [1, 2, 3, 4, 5, 6, 7, 8, 9]

/-- A trivial shuffle oracle (legitimate whenever no cell is empty). -/
def msTriv : ℕ → ℕ → List ℕ := fun _ _ => []

/-- A trivial seeding oracle. -/
def seedTriv : ℕ → ℕ → ℕ → List ℕ := fun _ _ _ => []

/-- A trial draw aimed at the top-left block. -/
def chCorner : TrialChoice := ⟨(0, 0), 0, 1, 0⟩

/-- A trial oracle that always produces `chCorner`. -/
def chssTriv : ℕ → ℕ → TrialChoice := fun _ _ => chCorner

/-- A trial draw that swaps the cells `(0,0)` and `(1,1)` of the top-left
block when nothing is fixed. -/
noncomputable def chRepair : TrialChoice := ⟨(0, 0), 0, 4, 1 / 2⟩

/-- An 8-row rectangular csv payload (each row has 9 fields). -/
def rows8 : List (List ℤ) := List.replicate 8 (List.replicate 9 0)

/-! ### Lemmas about the block-filling function -/

theorem fillList_length : ∀ cs ms : List ℕ, (fillList cs ms).length = cs.length
  | [], _ => rfl
  | c :: cs, ms => by
    by_cases hc : c = 0 <;>
      simp [fillList, hc, fillList_length cs]

theorem fillList_getD_of_ne_zero :
    ∀ (cs ms : List ℕ) (n : ℕ), cs.getD n 0 ≠ 0 →
      (fillList cs ms).getD n 0 = cs.getD n 0
  | [], _, n, h => by simp at h
  | c :: cs, ms, 0, h => by
    have hc : c ≠ 0 := by simpa using h
    simp [fillList, hc]
  | c :: cs, ms, n + 1, h => by
    by_cases hc : c = 0 <;>
      simpa [fillList, hc] using fillList_getD_of_ne_zero cs _ n (by simpa using h)

theorem fillList_getD_mem :
    ∀ (cs ms : List ℕ) (n : ℕ), n < cs.length → cs.getD n 0 = 0 →
      cs.count 0 ≤ ms.length → (fillList cs ms).getD n 0 ∈ ms
  | [], _, n, hn, _, _ => by simp at hn
  | c :: cs, ms, 0, _, h0, hcnt => by
    have hc : c = 0 := by simpa using h0
    subst hc
    have hne : ms ≠ [] := by
      intro hms
      subst hms
      simp [List.count_cons] at hcnt
    simp only [fillList, if_pos rfl, List.getD_cons_zero]
    have : ms.getLastD 0 = ms.getLast hne := by
      cases ms with
      | nil => exact absurd rfl hne
      | cons a l => simp [List.getLastD_eq_getLast?, List.getLast?_eq_getLast]
    rw [this]
    exact List.getLast_mem hne
  | c :: cs, ms, n + 1, hn, h0, hcnt => by
    by_cases hc : c = 0
    · subst hc
      have hrec := fillList_getD_mem cs ms.dropLast n (by simpa using hn)
        (by simpa using h0)
        (by
          rw [List.length_dropLast]
          simp [List.count_cons] at hcnt
          omega)
      simp only [fillList, if_pos rfl, List.getD_cons_succ]
      exact List.dropLast_subset ms hrec
    · have hrec := fillList_getD_mem cs ms n (by simpa using hn)
        (by simpa using h0)
        (by simpa [List.count_cons, hc] using hcnt)
      simpa [fillList, hc] using hrec

theorem fillList_multiset :
    ∀ cs ms : List ℕ, cs.count 0 = ms.length →
      ((fillList cs ms : List ℕ) : Multiset ℕ) =
        ((cs.filter (fun c => c ≠ 0) : List ℕ) : Multiset ℕ) + (ms : Multiset ℕ)
  | [], ms, h => by
    have hms : ms = [] := by
      simpa using (List.length_eq_zero.mp (by simpa using h.symm))
    subst hms
    simp [fillList]
  | c :: cs, ms, h => by
    by_cases hc : c = 0
    · subst hc
      have hne : ms ≠ [] := by
        intro hms
        subst hms
        simp [List.count_cons] at h
      have hcnt : cs.count 0 = ms.dropLast.length := by
        rw [List.length_dropLast]
        simp [List.count_cons] at h
        omega
      have hrec := fillList_multiset cs ms.dropLast hcnt
      have hlast : ms.getLastD 0 = ms.getLast hne := by
        cases ms with
        | nil => exact absurd rfl hne
        | cons a l => simp [List.getLastD_eq_getLast?, List.getLast?_eq_getLast]
      have hsplit : (ms : Multiset ℕ) =
          (ms.dropLast : Multiset ℕ) + {ms.getLast hne} := by
        conv_lhs => rw [← List.dropLast_append_getLast hne]
        rfl
      calc ((fillList (0 :: cs) ms : List ℕ) : Multiset ℕ)
          = ms.getLastD 0 ::ₘ ((fillList cs ms.dropLast : List ℕ) : Multiset ℕ) := by
            simp [fillList]
        _ = ((cs.filter (fun c => c ≠ 0) : List ℕ) : Multiset ℕ) + (ms : Multiset ℕ) := by
            rw [hrec, hlast, hsplit, ← Multiset.singleton_add]
            abel
        _ = (((0 :: cs).filter (fun c => c ≠ 0) : List ℕ) : Multiset ℕ) + (ms : Multiset ℕ) := by
            simp [List.filter_cons]
    · have hrec := fillList_multiset cs ms (by simpa [List.count_cons, hc] using h)
      calc ((fillList (c :: cs) ms : List ℕ) : Multiset ℕ)
          = c ::ₘ ((fillList cs ms : List ℕ) : Multiset ℕ) := by simp [fillList, hc]
        _ = c ::ₘ (((cs.filter (fun c => c ≠ 0) : List ℕ) : Multiset ℕ) + (ms : Multiset ℕ)) := by
            rw [hrec]
        _ = (((c :: cs).filter (fun c => c ≠ 0) : List ℕ) : Multiset ℕ) + (ms : Multiset ℕ) := by
            simp [List.filter_cons, hc]

theorem fillList_of_no_zero :
    ∀ cs ms : List ℕ, (∀ c ∈ cs, c ≠ 0) → fillList cs ms = cs
  | [], _, _ => rfl
  | c :: cs, ms, h => by
    have hc : c ≠ 0 := h c (by simp)
    simp only [fillList, if_neg hc]
    rw [fillList_of_no_zero cs ms (fun x hx => h x (by simp [hx]))]

/-! ### Lemmas about blocks and the generator -/

theorem blockCells_length (bi bj : ℕ) : (blockCells bi bj).length = 9 := rfl

theorem blockList_length (g : Grid) (bi bj : ℕ) : (blockList g bi bj).length = 9 := rfl

theorem blockCells_nodup (bi bj : ℕ) : (blockCells bi bj).Nodup := by
  simp [blockCells, List.nodup_cons, Prod.ext_iff]

theorem mem_blockCells {p : ℕ × ℕ} {bi bj : ℕ} :
    p ∈ blockCells bi bj ↔ ∃ k l, k < 3 ∧ l < 3 ∧ p = (3 * bi + k, 3 * bj + l) := by
  constructor
  · intro h
    simp only [blockCells, List.mem_cons, List.not_mem_nil, or_false] at h
    rcases h with h | h | h | h | h | h | h | h | h
    · exact ⟨0, 0, by norm_num, by norm_num, by simpa using h⟩
    · exact ⟨0, 1, by norm_num, by norm_num, by simpa using h⟩
    · exact ⟨0, 2, by norm_num, by norm_num, by simpa using h⟩
    · exact ⟨1, 0, by norm_num, by norm_num, by simpa using h⟩
    · exact ⟨1, 1, by norm_num, by norm_num, by simpa using h⟩
    · exact ⟨1, 2, by norm_num, by norm_num, by simpa using h⟩
    · exact ⟨2, 0, by norm_num, by norm_num, by simpa using h⟩
    · exact ⟨2, 1, by norm_num, by norm_num, by simpa using h⟩
    · exact ⟨2, 2, by norm_num, by norm_num, by simpa using h⟩
  · rintro ⟨k, l, hk, hl, rfl⟩
    interval_cases k <;> interval_cases l <;> simp [blockCells]

theorem blockCells_block_eq {p : ℕ × ℕ} {bi bj bi' bj' : ℕ}
    (h : p ∈ blockCells bi bj) (h' : p ∈ blockCells bi' bj') :
    bi = bi' ∧ bj = bj' := by
  rw [mem_blockCells] at h h'
  obtain ⟨k, l, hk, hl, rfl⟩ := h
  obtain ⟨k', l', hk', hl', he⟩ := h'
  rw [Prod.ext_iff] at he
  simp only at he
  omega

theorem blockCells_getD (bi k bj l : ℕ) (hk : k < 3) (hl : l < 3) :
    (blockCells bi bj).getD (3 * k + l) (0, 0) = (3 * bi + k, 3 * bj + l) := by
  interval_cases k <;> interval_cases l <;> norm_num [blockCells]

theorem blockList_getD (g : Grid) (i j : ℕ) :
    (blockList g (i / 3) (j / 3)).getD (3 * (i % 3) + j % 3) 0 = g i j := by
  have hn : 3 * (i % 3) + j % 3 < 9 := by omega
  rw [blockList, List.getD_eq_getElem _ _ (by simpa using hn), List.getElem_map]
  have hcell : (blockCells (i / 3) (j / 3))[3 * (i % 3) + j % 3] = (i, j) := by
    rw [← List.getD_eq_getElem _ (0, 0) (by simpa using hn),
      blockCells_getD (i / 3) (i % 3) (j / 3) (j % 3) (by omega) (by omega),
      show 3 * (i / 3) + i % 3 = i by omega, show 3 * (j / 3) + j % 3 = j by omega]
  rw [hcell]

theorem blockList_generate (g : Grid) (ms : ℕ → ℕ → List ℕ) (bi bj : ℕ) :
    blockList (generate_grid g ms) bi bj = fillList (blockList g bi bj) (ms bi bj) := by
  apply List.ext_getElem
  · rw [blockList_length, fillList_length, blockList_length]
  · intro n h1 h2
    have hn : n < 9 := by simpa [blockList_length] using h1
    have hcell : (blockCells bi bj)[n] = (3 * bi + n / 3, 3 * bj + n % 3) := by
      have e : 3 * (n / 3) + n % 3 = n := by omega
      rw [← List.getD_eq_getElem _ (0, 0) (by simpa using hn)]
      conv_lhs => rw [← e]
      rw [blockCells_getD bi (n / 3) bj (n % 3) (by omega) (by omega)]
    simp only [blockList, List.getElem_map]
    rw [hcell]
    simp only [generate_grid]
    rw [show (3 * bi + n / 3) / 3 = bi by omega,
      show (3 * bj + n % 3) / 3 = bj by omega,
      show (3 * bi + n / 3) % 3 = n / 3 by omega,
      show (3 * bj + n % 3) % 3 = n % 3 by omega,
      show 3 * (n / 3) + n % 3 = n by omega,
      List.getD_eq_getElem _ _ (by rw [fillList_length, blockList_length]; exact hn)]
    rfl

theorem generate_grid_ne_zero (g : Grid) (ms : ℕ → ℕ → List ℕ) (i j : ℕ)
    (h : g i j ≠ 0) : generate_grid g ms i j = g i j := by
  simp only [generate_grid]
  rw [fillList_getD_of_ne_zero _ _ _ (by rw [blockList_getD]; exact h),
    blockList_getD]

/-! ### The counting argument behind block validity -/

theorem length_filter_ne_add_count (cs : List ℕ) :
    (cs.filter (fun c => c ≠ 0)).length + cs.count 0 = cs.length := by
  induction cs with
  | nil => rfl
  | cons a l ih =>
    by_cases ha : a = 0 <;>
      simp [List.filter_cons, ha, List.count_cons, ← ih] <;> omega

theorem length_filter_mem_add_not_mem (l cs : List ℕ) :
    (l.filter (fun d => d ∈ cs)).length + (l.filter (fun d => d ∉ cs)).length
      = l.length := by
  induction l with
  | nil => rfl
  | cons a t ih =>
    by_cases ha : a ∈ cs <;> simp [List.filter_cons, ha, ← ih] <;> omega

theorem multiset_eq_of_nodup_toFinset {s t : Multiset ℕ} (hs : s.Nodup)
    (ht : t.Nodup) (h : s.toFinset = t.toFinset) : s = t := by
  calc s = s.dedup := (Multiset.dedup_eq_self.2 hs).symm
    _ = s.toFinset.val := (Multiset.toFinset_val s).symm
    _ = t.toFinset.val := by rw [h]
    _ = t.dedup := Multiset.toFinset_val t
    _ = t := Multiset.dedup_eq_self.2 ht

/-- If a 9-cell block has exactly as many empty cells as missing digits,
then its non-zero values together with the missing digits make up the
digits 1–9 exactly: the hypothesis forces the non-zero values to be
distinct digits of 1–9. -/
theorem block_fill_complete (cs : List ℕ) (hlen : cs.length = 9)
    (hcnt : cs.count 0
      = (((List.range 9).map (· + 1)).filter (fun d => d ∉ cs)).length) :
    ((cs.filter (fun c => c ≠ 0) : List ℕ) : Multiset ℕ)
      + ((((List.range 9).map (· + 1)).filter (fun d => d ∉ cs) : List ℕ) : Multiset ℕ)
      = (((List.range 9).map (· + 1) : List ℕ) : Multiset ℕ) := by
  set digits := (List.range 9).map (· + 1) with hdig
  set ns := cs.filter (fun c => c ≠ 0) with hns
  set ml := digits.filter (fun d => d ∉ cs) with hml
  set S := digits.filter (fun d => d ∈ cs) with hSdef
  have hdignodup : digits.Nodup := by decide
  have hdiglen : digits.length = 9 := by decide
  have hdig_ne_zero : ∀ d ∈ digits, d ≠ 0 := by decide
  have hsplit1 : ns.length + cs.count 0 = 9 := by
    rw [hns, length_filter_ne_add_count, hlen]
  have hsplit2 : S.length + ml.length = 9 := by
    rw [hSdef, hml, length_filter_mem_add_not_mem, hdiglen]
  have hSn : S.length = ns.length := by omega
  have hSnodup : S.Nodup := hdignodup.filter _
  have hmlnodup : ml.Nodup := hdignodup.filter _
  have hsub : S.toFinset ⊆ ns.toFinset := by
    intro d hd
    rw [List.mem_toFinset] at hd ⊢
    rw [hSdef, List.mem_filter] at hd
    rw [hns, List.mem_filter]
    refine ⟨by simpa using hd.2, ?_⟩
    simpa using hdig_ne_zero d hd.1
  have hScard : S.toFinset.card = S.length := List.toFinset_card_of_nodup hSnodup
  have hnscard : ns.toFinset.card ≤ ns.length := by apply List.toFinset_card_le
  have hScard_le : ns.toFinset.card ≤ S.toFinset.card := by omega
  have hfin : S.toFinset = ns.toFinset :=
    Finset.eq_of_subset_of_card_le hsub hScard_le
  have hnsdedup : ns.dedup.length = ns.length := by
    have h1 : ns.toFinset.card = ns.dedup.length := List.card_toFinset ns
    have h2 : S.toFinset.card ≤ ns.toFinset.card :=
      Finset.card_le_card (le_of_eq hfin)
    omega
  have hnsnodup : ns.Nodup := by
    have he : ns.dedup = ns := (List.dedup_sublist ns).eq_of_length hnsdedup
    rw [← he]
    exact List.nodup_dedup ns
  apply multiset_eq_of_nodup_toFinset
  · rw [Multiset.nodup_add]
    refine ⟨by simpa using hnsnodup, by simpa using hmlnodup, ?_⟩
    rw [Multiset.disjoint_left]
    intro d hd hd'
    rw [Multiset.mem_coe, hns, List.mem_filter] at hd
    rw [Multiset.mem_coe, hml, List.mem_filter] at hd'
    have hd2 := hd'.2
    simp only [decide_not, Bool.not_eq_true', decide_eq_false_iff_not] at hd2
    exact hd2 hd.1
  · simpa using hdignodup
  · rw [Multiset.toFinset_add]
    ext d
    simp only [Finset.mem_union, Multiset.mem_toFinset, Multiset.mem_coe]
    constructor
    · rintro (hd | hd)
      · have : d ∈ S.toFinset := by rw [hfin, List.mem_toFinset]; exact hd
        rw [List.mem_toFinset, hSdef, List.mem_filter] at this
        exact this.1
      · rw [hml, List.mem_filter] at hd
        exact hd.1
    · intro hd
      by_cases hc : d ∈ cs
      · left
        have : d ∈ S := by
          rw [hSdef, List.mem_filter]
          exact ⟨hd, by simpa using hc⟩
        have : d ∈ S.toFinset := by rw [List.mem_toFinset]; exact this
        rw [hfin, List.mem_toFinset] at this
        exact this
      · right
        rw [hml, List.mem_filter]
        exact ⟨hd, by simpa using hc⟩

/-! ### Lemmas about the perturbation operator -/

theorem map_swap_perm (l : List (ℕ × ℕ)) (hl : l.Nodup) (a b : ℕ × ℕ)
    (ha : a ∈ l) (hb : b ∈ l) (f : ℕ × ℕ → ℕ) :
    (l.map (fun p => if p = a then f b else if p = b then f a else f p)).Perm
      (l.map f) := by
  by_cases hab : a = b
  · subst hab
    apply List.Perm.of_eq
    apply List.map_congr_left
    intro p _
    by_cases hp : p = a
    · simp [hp]
    · simp [hp]
  · have hba : b ≠ a := Ne.symm hab
    rcases List.mem_cons.1 ((List.perm_cons_erase ha).mem_iff.1 hb) with h | hb'
    · exact absurd h hba
    obtain ⟨rest, hperm⟩ : ∃ rest, l.Perm (a :: b :: rest) :=
      ⟨_, (List.perm_cons_erase ha).trans ((List.perm_cons_erase hb').cons a)⟩
    have hnd : (a :: b :: rest).Nodup := hperm.nodup_iff.1 hl
    simp only [List.nodup_cons, List.mem_cons] at hnd
    have hanr : a ∉ rest := fun h => hnd.1 (Or.inr h)
    have hbnr : b ∉ rest := hnd.2.1
    have hcongr :
        rest.map (fun p => if p = a then f b else if p = b then f a else f p)
          = rest.map f := by
      apply List.map_congr_left
      intro p hp
      rw [if_neg (fun h : p = a => hanr (by rw [← h]; exact hp)),
        if_neg (fun h : p = b => hbnr (by rw [← h]; exact hp))]
    have step1 :
        (l.map (fun p => if p = a then f b else if p = b then f a else f p)).Perm
          ((a :: b :: rest).map
            (fun p => if p = a then f b else if p = b then f a else f p)) :=
      hperm.map _
    have step2 :
        (a :: b :: rest).map
            (fun p => if p = a then f b else if p = b then f a else f p)
          = f b :: f a :: rest.map f := by
      simp [hba, hcongr]
    have step3 : (f b :: f a :: rest.map f).Perm (f a :: f b :: rest.map f) :=
      List.Perm.swap _ _ _
    have step4 : f a :: f b :: rest.map f = (a :: b :: rest).map f := by simp
    exact (((step1.trans (step2 ▸ List.Perm.refl _)).trans step3).trans
      (step4 ▸ List.Perm.refl _)).trans (hperm.map f).symm

theorem unseenCoords_subset (g : Grid) (bi bj : ℕ) (fixed : List (ℕ × ℕ)) :
    unseenCoords g bi bj fixed ⊆ blockCells bi bj := by
  intro p hp
  exact (List.mem_filter.1 hp).1

theorem unseenCoords_nodup (g : Grid) (bi bj : ℕ) (fixed : List (ℕ × ℕ)) :
    (unseenCoords g bi bj fixed).Nodup :=
  (blockCells_nodup bi bj).filter _

theorem mem_unseenCoords {g : Grid} {bi bj : ℕ} {fixed : List (ℕ × ℕ)}
    {p : ℕ × ℕ} (h : p ∈ unseenCoords g bi bj fixed) :
    p ∈ blockCells bi bj ∧ 0 < g p.1 p.2 ∧ p ∉ fixed := by
  rw [unseenCoords, List.mem_filter] at h
  exact ⟨h.1, by simpa using h.2⟩

/-- Full characterisation of a successful `swap_vals` call: the two
chosen cells, their membership in the candidate list, and the shape of
the returned grid. -/
theorem swap_vals_some (g : Grid) (bi bj : ℕ) (fixed : List (ℕ × ℕ))
    (c1 c2 : ℕ) (h2 : 2 ≤ (unseenCoords g bi bj fixed).length) :
    ∃ p1 p2 : ℕ × ℕ,
      p1 ∈ unseenCoords g bi bj fixed ∧ p2 ∈ unseenCoords g bi bj fixed ∧
      swap_vals g bi bj fixed c1 c2 = some (fun i j =>
        if (i, j) = p1 then g p2.1 p2.2
        else if (i, j) = p2 then g p1.1 p1.2
        else g i j) ∧
      (c1 % (unseenCoords g bi bj fixed).length
          ≠ c2 % (unseenCoords g bi bj fixed).length → p1 ≠ p2) := by
  set unseen := unseenCoords g bi bj fixed with hu
  have hpos : 0 < unseen.length := by omega
  have hm1 : c1 % unseen.length < unseen.length := Nat.mod_lt _ hpos
  have hm2 : c2 % unseen.length < unseen.length := Nat.mod_lt _ hpos
  refine ⟨unseen.getD (c1 % unseen.length) (0, 0),
    unseen.getD (c2 % unseen.length) (0, 0), ?_, ?_, ?_, ?_⟩
  · rw [List.getD_eq_getElem _ _ hm1]
    exact List.getElem_mem hm1
  · rw [List.getD_eq_getElem _ _ hm2]
    exact List.getElem_mem hm2
  · rw [swap_vals]
    simp only [← hu]
    rw [if_pos h2]
  · intro hne he
    rw [List.getD_eq_getElem _ _ hm1, List.getD_eq_getElem _ _ hm2] at he
    exact hne ((List.Nodup.getElem_inj_iff (unseenCoords_nodup g bi bj fixed)).mp he)

theorem swap_vals_fixed (g : Grid) (bi bj : ℕ) (fixed : List (ℕ × ℕ))
    (c1 c2 : ℕ) (g' : Grid) (hsw : swap_vals g bi bj fixed c1 c2 = some g')
    (p : ℕ × ℕ) (hp : p ∈ fixed) : g' p.1 p.2 = g p.1 p.2 := by
  by_cases h2 : 2 ≤ (unseenCoords g bi bj fixed).length
  · obtain ⟨p1, p2, hp1, hp2, heq, -⟩ := swap_vals_some g bi bj fixed c1 c2 h2
    rw [heq] at hsw
    have hg' : g' = fun i j =>
        if (i, j) = p1 then g p2.1 p2.2
        else if (i, j) = p2 then g p1.1 p1.2
        else g i j := (Option.some_injective _ hsw).symm
    have hne1 : (p.1, p.2) ≠ p1 := by
      intro h
      exact (mem_unseenCoords hp1).2.2 (by simpa [← h] using hp)
    have hne2 : (p.1, p.2) ≠ p2 := by
      intro h
      exact (mem_unseenCoords hp2).2.2 (by simpa [← h] using hp)
    rw [hg']
    simp only [if_neg hne1, if_neg hne2]
  · rw [swap_vals] at hsw
    simp only [if_neg h2] at hsw
    cases hsw

/-- A successful swap permutes the values of the targeted block and leaves
every other block's value list unchanged. -/
theorem swap_vals_blocks (g : Grid) (bi bj : ℕ) (fixed : List (ℕ × ℕ))
    (c1 c2 : ℕ) (g' : Grid) (hsw : swap_vals g bi bj fixed c1 c2 = some g') :
    (blockList g' bi bj).Perm (blockList g bi bj) ∧
      ∀ bi' bj', ¬(bi' = bi ∧ bj' = bj) →
        blockList g' bi' bj' = blockList g bi' bj' := by
  by_cases h2 : 2 ≤ (unseenCoords g bi bj fixed).length
  · obtain ⟨p1, p2, hp1, hp2, heq, -⟩ := swap_vals_some g bi bj fixed c1 c2 h2
    rw [heq] at hsw
    have hg' : g' = fun i j =>
        if (i, j) = p1 then g p2.1 p2.2
        else if (i, j) = p2 then g p1.1 p1.2
        else g i j := (Option.some_injective _ hsw).symm
    have hp1c : p1 ∈ blockCells bi bj := unseenCoords_subset g bi bj fixed hp1
    have hp2c : p2 ∈ blockCells bi bj := unseenCoords_subset g bi bj fixed hp2
    constructor
    · have hmap : blockList g' bi bj
          = (blockCells bi bj).map (fun q =>
              if q = p1 then g p2.1 p2.2
              else if q = p2 then g p1.1 p1.2
              else g q.1 q.2) := by
        rw [hg']
        unfold blockList
        apply List.map_congr_left
        intro q _
        simp only [Prod.mk.eta]
      rw [hmap]
      exact map_swap_perm (blockCells bi bj) (blockCells_nodup bi bj) p1 p2
        hp1c hp2c (fun q => g q.1 q.2)
    · intro bi' bj' hne
      rw [hg']
      unfold blockList
      apply List.map_congr_left
      intro q hq
      have hq1 : (q.1, q.2) ≠ p1 := by
        intro h
        rw [Prod.mk.eta] at h
        subst h
        exact hne ⟨(blockCells_block_eq hq hp1c).1, (blockCells_block_eq hq hp1c).2⟩
      have hq2 : (q.1, q.2) ≠ p2 := by
        intro h
        rw [Prod.mk.eta] at h
        subst h
        exact hne ⟨(blockCells_block_eq hq hp2c).1, (blockCells_block_eq hq hp2c).2⟩
      simp only [if_neg hq1, if_neg hq2]
  · rw [swap_vals] at hsw
    simp only [if_neg h2] at hsw
    cases hsw

/-! ### Lemmas about the cost function and the validator -/

theorem list_sum_eq_zero_iff (l : List ℤ) (h : ∀ x ∈ l, 0 ≤ x) :
    l.sum = 0 ↔ ∀ x ∈ l, x = 0 := by
  induction l with
  | nil => simp
  | cons a t ih =>
    have ha : 0 ≤ a := h a (by simp)
    have ht : 0 ≤ t.sum := List.sum_nonneg (fun x hx => h x (by simp [hx]))
    rw [List.sum_cons]
    constructor
    · intro he
      have ha0 : a = 0 := by omega
      have hts : t.sum = 0 := by omega
      intro x hx
      rcases List.mem_cons.1 hx with rfl | hx
      · exact ha0
      · exact (ih (fun y hy => h y (by simp [hy]))).1 hts x hx
    · intro hall
      have h1 : a = 0 := hall a (by simp)
      have h2 : t.sum = 0 :=
        (ih (fun y hy => h y (by simp [hy]))).2 (fun x hx => hall x (by simp [hx]))
      omega

theorem cost_function_nonneg (g : Grid) : 0 ≤ cost_function g := by
  apply List.sum_nonneg
  intro x hx
  rw [List.mem_map] at hx
  obtain ⟨i, -, rfl⟩ := hx
  positivity

theorem abs_pair_eq_zero_iff (a b : ℤ) : |9 - a| + |9 - b| = 0 ↔ a = 9 ∧ b = 9 := by
  have h1 := abs_nonneg (9 - a)
  have h2 := abs_nonneg (9 - b)
  constructor
  · intro h
    have e1 : |9 - a| = 0 := by omega
    have e2 : |9 - b| = 0 := by omega
    rw [abs_eq_zero, sub_eq_zero] at e1 e2
    exact ⟨e1.symm, e2.symm⟩
  · rintro ⟨rfl, rfl⟩
    norm_num

theorem cost_function_eq_zero_iff (g : Grid) :
    cost_function g = 0 ↔
      ∀ i < 9, numDistinct (rowList g i) = 9 ∧ numDistinct (colList g i) = 9 := by
  rw [cost_function, list_sum_eq_zero_iff _ (by
    intro x hx
    rw [List.mem_map] at hx
    obtain ⟨i, -, rfl⟩ := hx
    positivity)]
  constructor
  · intro h i hi
    have hz := h _ (List.mem_map.2 ⟨i, List.mem_range.2 hi, rfl⟩)
    have hk := (abs_pair_eq_zero_iff _ _).1 hz
    exact ⟨by exact_mod_cast hk.1, by exact_mod_cast hk.2⟩
  · intro h x hx
    rw [List.mem_map] at hx
    obtain ⟨i, hi, rfl⟩ := hx
    apply (abs_pair_eq_zero_iff _ _).2
    obtain ⟨hr, hc⟩ := h i (List.mem_range.1 hi)
    exact ⟨by exact_mod_cast hr, by exact_mod_cast hc⟩

theorem rowList_congr {g1 g2 : Grid} (i : ℕ) (hi : i < 9)
    (h : ∀ i j, i < 9 → j < 9 → g1 i j = g2 i j) : rowList g1 i = rowList g2 i := by
  unfold rowList
  apply List.map_congr_left
  intro j hj
  exact h i j hi (List.mem_range.1 hj)

theorem colList_congr {g1 g2 : Grid} (j : ℕ) (hj : j < 9)
    (h : ∀ i j, i < 9 → j < 9 → g1 i j = g2 i j) : colList g1 j = colList g2 j := by
  unfold colList
  apply List.map_congr_left
  intro i hi
  exact h i j (List.mem_range.1 hi) hj

theorem cost_function_congr {g1 g2 : Grid}
    (h : ∀ i j, i < 9 → j < 9 → g1 i j = g2 i j) :
    cost_function g1 = cost_function g2 := by
  unfold cost_function
  apply congrArg List.sum
  apply List.map_congr_left
  intro i hi
  rw [rowList_congr i (List.mem_range.1 hi) h, colList_congr i (List.mem_range.1 hi) h]

theorem valid_unit_no_zero {l : List ℕ} (hval : valid_unit l = true)
    (hnz : ∀ x ∈ l, x ≠ 0) : numDistinct l = l.length := by
  have hfil : l.filter (fun v => v ≠ 0) = l :=
    List.filter_eq_self.2 (fun a ha => by simpa using hnz a ha)
  rw [valid_unit, hfil] at hval
  simpa using hval

/-- A fully populated grid that passes the validator has cost 0. -/
theorem cost_function_of_full_valid (g : Grid)
    (hfull : ∀ i < 9, ∀ j < 9, g i j ≠ 0)
    (hval : valid_sudoku g = true) : cost_function g = 0 := by
  rw [valid_sudoku, Bool.and_eq_true, Bool.and_eq_true] at hval
  obtain ⟨⟨hrows, hcols⟩, -⟩ := hval
  rw [cost_function_eq_zero_iff]
  intro i hi
  constructor
  · have hv : valid_unit (rowList g i) = true := by
      rw [valid_rows, List.all_eq_true] at hrows
      exact hrows i (List.mem_range.2 hi)
    have := valid_unit_no_zero hv (by
      intro x hx
      rw [rowList, List.mem_map] at hx
      obtain ⟨j, hj, rfl⟩ := hx
      exact hfull i hi j (List.mem_range.1 hj))
    simpa [rowList] using this
  · have hv : valid_unit (colList g i) = true := by
      rw [valid_cols, List.all_eq_true] at hcols
      exact hcols i (List.mem_range.2 hi)
    have := valid_unit_no_zero hv (by
      intro x hx
      rw [colList, List.mem_map] at hx
      obtain ⟨j, hj, rfl⟩ := hx
      exact hfull j (List.mem_range.1 hj) i hi)
    simpa [colList] using this

/-! ### Lemmas about the solver -/

theorem mem_fixed_coords {g : Grid} {p : ℕ × ℕ} :
    p ∈ fixed_coords g ↔ p.1 < 9 ∧ p.2 < 9 ∧ 0 < g p.1 p.2 := by
  rw [fixed_coords, List.mem_filter]
  simp only [List.mem_flatten, List.mem_map, List.mem_range, decide_eq_true_eq]
  constructor
  · rintro ⟨⟨l, ⟨i, hi, rfl⟩, hpl⟩, hpos⟩
    obtain ⟨j, hj, rfl⟩ := by simpa using hpl
    exact ⟨hi, hj, hpos⟩
  · rintro ⟨h1, h2, hpos⟩
    refine ⟨⟨(List.range 9).map (fun j => (p.1, j)), ⟨p.1, h1, rfl⟩, ?_⟩, hpos⟩
    simp only [List.mem_map, List.mem_range]
    exact ⟨p.2, h2, by rw [Prod.mk.eta]⟩

/-- The generator is a no-op on a grid with no empty cell. -/
theorem generate_grid_of_full (g : Grid)
    (hfull : ∀ i < 9, ∀ j < 9, g i j ≠ 0) (ms : ℕ → ℕ → List ℕ) :
    ∀ i j, i < 9 → j < 9 → generate_grid g ms i j = g i j := by
  intro i j hi hj
  exact generate_grid_ne_zero g ms i j (hfull i hi j hj)

theorem npStd_replicate (n : ℕ) (c : ℝ) : npStd (List.replicate n c) = 0 := by
  rcases Nat.eq_zero_or_pos n with rfl | hn
  · simp [npStd]
  · have hne : (n : ℝ) ≠ 0 := Nat.cast_ne_zero.2 hn.ne'
    rw [npStd]
    rw [List.sum_replicate, List.length_replicate]
    rw [show (n : ℕ) • c = (n : ℝ) * c by simp]
    rw [mul_div_cancel_left₀ c hne]
    rw [List.map_replicate]
    simp

theorem init_temperature_nonneg (g : Grid) (seedMs : ℕ → ℕ → ℕ → List ℕ) :
    0 ≤ init_temperature g seedMs := by
  unfold init_temperature npStd
  exact Real.sqrt_nonneg _

/-- For a grid with no empty cell every seeding sample is the grid itself,
so every seeding cost equals `cost_function g` and the seeded temperature
is 0. -/
theorem init_temperature_of_full (g : Grid)
    (hfull : ∀ i < 9, ∀ j < 9, g i j ≠ 0) (seedMs : ℕ → ℕ → ℕ → List ℕ) :
    init_temperature g seedMs = 0 := by
  rw [init_temperature]
  have hcost : ∀ t : ℕ, cost_function (generate_grid g (seedMs t)) = cost_function g :=
    fun t => cost_function_congr (generate_grid_of_full g hfull (seedMs t))
  have hmap : (List.range 100).map
      (fun t => ((cost_function (generate_grid g (seedMs t)) : ℤ) : ℝ))
        = List.replicate 100 ((cost_function g : ℤ) : ℝ) := by
    rw [List.eq_replicate_iff]
    refine ⟨by simp, ?_⟩
    intro x hx
    rw [List.mem_map] at hx
    obtain ⟨t, -, rfl⟩ := hx
    rw [hcost t]
  rw [hmap, npStd_replicate]

theorem numOuter_eq_zero {T0 : ℝ} (h : T0 ≤ 0.1) : numOuter T0 = 0 := by
  rw [numOuter, Nat.find_eq_zero]
  simpa [temper] using h

/-- When the seeded temperature is at or below the floor the annealing
loop body never runs: `solve` returns the freshly generated candidate. -/
theorem solve_of_small_temp (g : Grid) (seedMs : ℕ → ℕ → ℕ → List ℕ)
    (msW : ℕ → ℕ → List ℕ) (chss : ℕ → ℕ → TrialChoice)
    (h : init_temperature g seedMs ≤ 0.1) :
    solve g seedMs msW chss = .ok (generate_grid g msW) := by
  rw [solve]
  rw [numOuter_eq_zero h]
  rfl

/-- Any non-crash outcome grid of a trial is either the unchanged current
grid or a successful swap of it. -/
theorem trial_out (fixed : List (ℕ × ℕ)) (T : ℝ) (g : Grid) (ch : TrialChoice)
    (gn : Grid)
    (h : trial fixed T g ch = .solved gn ∨ trial fixed T g ch = .cont gn) :
    gn = g ∨ ∃ gnew,
      swap_vals g (ch.region.1 % 3) (ch.region.2 % 3) fixed ch.c1 ch.c2 = some gnew
        ∧ gn = gnew := by
  unfold trial at h
  cases hsw : swap_vals g (ch.region.1 % 3) (ch.region.2 % 3) fixed ch.c1 ch.c2 with
  | none =>
    rw [hsw] at h
    simp at h
  | some gnew =>
    rw [hsw] at h
    simp only at h
    rcases h with h | h
    · split at h
      · split at h
        · right
          refine ⟨gnew, rfl, ?_⟩
          injection h with h'
          exact h'.symm
        · cases h
      · cases h
    · split at h
      · split at h
        · cases h
        · right
          refine ⟨gnew, rfl, ?_⟩
          injection h with h'
          exact h'.symm
      · left
        injection h with h'
        exact h'.symm

theorem trial_fixed (fixed : List (ℕ × ℕ)) (T : ℝ) (g : Grid) (ch : TrialChoice)
    (gn : Grid)
    (h : trial fixed T g ch = .solved gn ∨ trial fixed T g ch = .cont gn)
    (p : ℕ × ℕ) (hp : p ∈ fixed) : gn p.1 p.2 = g p.1 p.2 := by
  rcases trial_out fixed T g ch gn h with rfl | ⟨gnew, hsw, rfl⟩
  · rfl
  · exact swap_vals_fixed _ _ _ _ _ _ _ hsw p hp

theorem innerLoop_fixed (fixed : List (ℕ × ℕ)) (T : ℝ) :
    ∀ (chs : List TrialChoice) (g gn : Grid),
      (innerLoop fixed T g chs = .solved gn ∨ innerLoop fixed T g chs = .cont gn) →
      ∀ p ∈ fixed, gn p.1 p.2 = g p.1 p.2
  | [], g, gn, h, p, hp => by
    rcases h with h | h
    · rw [innerLoop] at h
      cases h
    · rw [innerLoop] at h
      injection h with h'
      rw [← h']
  | ch :: chs, g, gn, h, p, hp => by
    have hstep : innerLoop fixed T g (ch :: chs) =
        match trial fixed T g ch with
        | .crashed => .crashed
        | .solved gm => .solved gm
        | .cont gm => innerLoop fixed T gm chs := rfl
    cases ht : trial fixed T g ch with
    | crashed =>
      rw [hstep, ht] at h
      rcases h with h | h <;> cases h
    | solved gm =>
      rw [hstep, ht] at h
      have hgm : gn = gm := by
        rcases h with h | h
        · injection h with h'
          exact h'.symm
        · cases h
      rw [hgm]
      exact trial_fixed fixed T g ch gm (Or.inl ht) p hp
    | cont gm =>
      rw [hstep, ht] at h
      have hrec := innerLoop_fixed fixed T chs gm gn h p hp
      rw [hrec]
      exact trial_fixed fixed T g ch gm (Or.inr ht) p hp

theorem loopAux_fixed (fixed : List (ℕ × ℕ)) (chss : ℕ → ℕ → TrialChoice)
    (T0 : ℝ) :
    ∀ (n k : ℕ) (g gn : Grid), loopAux fixed chss T0 n k g = .ok gn →
      ∀ p ∈ fixed, gn p.1 p.2 = g p.1 p.2
  | 0, k, g, gn, h, p, hp => by
    rw [loopAux] at h
    injection h with h'
    rw [← h']
  | n + 1, k, g, gn, h, p, hp => by
    rw [loopAux] at h
    split at h
    · cases hil : innerLoop fixed (temper T0 k) g
          ((List.range NUM_ITERATIONS).map (chss k)) with
      | crashed =>
        rw [hil] at h
        cases h
      | solved gm =>
        rw [hil] at h
        have hgm : gn = gm := by
          injection h with h'
          exact h'.symm
        rw [hgm]
        exact innerLoop_fixed fixed (temper T0 k) _ g gm (Or.inl hil) p hp
      | cont gm =>
        rw [hil] at h
        have hrec := loopAux_fixed fixed chss T0 n (k + 1) gm gn h p hp
        rw [hrec]
        exact innerLoop_fixed fixed (temper T0 k) _ g gm (Or.inr hil) p hp
    · injection h with h'
      rw [← h']

theorem solve_fixed (g : Grid) (seedMs : ℕ → ℕ → ℕ → List ℕ)
    (msW : ℕ → ℕ → List ℕ) (chss : ℕ → ℕ → TrialChoice) (gn : Grid)
    (h : solve g seedMs msW chss = .ok gn) :
    ∀ p ∈ fixed_coords g, gn p.1 p.2 = g p.1 p.2 := by
  intro p hp
  rw [solve] at h
  have h1 := loopAux_fixed (fixed_coords g) chss _ _ _ _ _ h p hp
  have hpos := (mem_fixed_coords.1 hp).2.2
  have h2 : generate_grid g msW p.1 p.2 = g p.1 p.2 :=
    generate_grid_ne_zero g msW p.1 p.2 (by omega)
  rw [h1, h2]

/-! ### Claim theorems -/

/-- C2: for every grid, `cost_function` is a non-negative integer, and it
is zero exactly when every one of the 9 rows and 9 columns holds 9
distinct values (the cost being the sum over these 18 units of
|9 − number of distinct values|, per the definition of
`cost_function`). -/
theorem claim_C2 (g : Grid) :
    0 ≤ cost_function g ∧
      (cost_function g = 0 ↔
        ∀ i < 9, numDistinct (rowList g i) = 9 ∧ numDistinct (colList g i) = 9) :=
  ⟨cost_function_nonneg g, cost_function_eq_zero_iff g⟩

/-- C1: fixed cells — the positions holding a non-zero digit of the
original puzzle — are never changed: (a) the generator keeps every
non-zero cell of its input, (b) a successful perturbation keeps every
cell of the fixed-coordinate list, and (c) across an entire solve run,
any returned grid agrees with the original puzzle on all of
`fixed_coords`. -/
theorem claim_C1 :
    (∀ (g : Grid) (ms : ℕ → ℕ → List ℕ) (i j : ℕ), g i j ≠ 0 →
        generate_grid g ms i j = g i j) ∧
    (∀ (g : Grid) (bi bj : ℕ) (fixed : List (ℕ × ℕ)) (c1 c2 : ℕ) (g' : Grid),
        swap_vals g bi bj fixed c1 c2 = some g' →
        ∀ p ∈ fixed, g' p.1 p.2 = g p.1 p.2) ∧
    (∀ (g : Grid) (seedMs : ℕ → ℕ → ℕ → List ℕ) (msW : ℕ → ℕ → List ℕ)
        (chss : ℕ → ℕ → TrialChoice) (gn : Grid),
        solve g seedMs msW chss = .ok gn →
        ∀ p ∈ fixed_coords g, gn p.1 p.2 = g p.1 p.2) :=
  ⟨fun g ms i j h => generate_grid_ne_zero g ms i j h,
   fun g bi bj fixed c1 c2 g' hsw p hp => swap_vals_fixed g bi bj fixed c1 c2 g' hsw p hp,
   fun g seedMs msW chss gn h p hp => solve_fixed g seedMs msW chss gn h p hp⟩

theorem claim_C1_witness :
    generate_grid gLatin msTriv 0 0 = gLatin 0 0 ∧
      ((swap_vals gLatin 0 0 [(0, 2)] 0 1).getD gZero) 0 2 = gLatin 0 2 ∧
      (generate_grid gLatin msTriv) 1 1 = gLatin 1 1 := by
  refine ⟨claim_C1.1 gLatin msTriv 0 0 (by decide), ?_, ?_⟩
  · exact claim_C1.2.1 gLatin 0 0 [(0, 2)] 0 1
      ((swap_vals gLatin 0 0 [(0, 2)] 0 1).getD gZero) rfl (0, 2) (by decide)
  · exact claim_C1.2.2 gLatin seedTriv msTriv chssTriv (generate_grid gLatin msTriv)
      (solve_of_small_temp gLatin seedTriv msTriv chssTriv
        (by rw [init_temperature_of_full gLatin (by decide) seedTriv]; norm_num))
      (1, 1) (by decide)

/-- C8: an input of 8 rows (of 9 fields each) parses without any error —
`np.array(grid, dtype=int)` checks only rectangularity — and the result
keeps its 8 rows: the claimed `MalformedInput` failure does not exist in
the code (the crash happens only later, in `display_grid`). -/
theorem claim_C8 :
    parse_csv rows8 = .ok rows8 ∧ rows8.length = 8 ∧
      rows8.all (fun r => r.length = 9) = true :=
  ⟨rfl, rfl, by decide⟩

/-- C9: the temperature decays geometrically — `temper T0 (k+1) = 0.99 *
temper T0 k` — hence is monotonically non-increasing from the
(non-negative) seeded value, and the outer loop runs only while the
temperature exceeds the floor 0.1: at or below the floor it exits at
once with the current candidate. -/
theorem claim_C9 :
    (∀ (T0 : ℝ) (k : ℕ), temper T0 (k + 1) = 0.99 * temper T0 k) ∧
    (∀ T0 : ℝ, 0 ≤ T0 → ∀ k : ℕ, temper T0 (k + 1) ≤ temper T0 k) ∧
    (∀ (g : Grid) (seedMs : ℕ → ℕ → ℕ → List ℕ), 0 ≤ init_temperature g seedMs) ∧
    (∀ (fixed : List (ℕ × ℕ)) (chss : ℕ → ℕ → TrialChoice) (T0 : ℝ) (n k : ℕ)
        (g : Grid), temper T0 k ≤ 0.1 → loopAux fixed chss T0 n k g = .ok g) := by
  refine ⟨?_, ?_, ?_, ?_⟩
  · intro T0 k
    rw [temper, COOLING_RATE, mul_comm]
  · intro T0 hT0 k
    rw [temper]
    have hpos : 0 ≤ temper T0 k := by
      rw [temper_eq_pow]
      exact mul_nonneg hT0 (pow_nonneg (by norm_num [COOLING_RATE]) k)
    exact mul_le_of_le_one_right hpos (by norm_num [COOLING_RATE])
  · intro g seedMs
    exact init_temperature_nonneg g seedMs
  · intro fixed chss T0 n k g h
    cases n with
    | zero => rw [loopAux]
    | succ m =>
      rw [loopAux, if_neg (not_lt.2 h)]

theorem claim_C9_witness :
    temper 5 1 = 0.99 * temper 5 0 ∧ temper 1 1 ≤ temper 1 0 ∧
      0 ≤ init_temperature gLatin seedTriv ∧
      loopAux [] chssTriv 0.05 3 0 gZero = .ok gZero :=
  ⟨claim_C9.1 5 0, claim_C9.2.1 1 (by norm_num) 0,
   claim_C9.2.2.1 gLatin seedTriv,
   claim_C9.2.2.2 [] chssTriv 0.05 3 0 gZero (by rw [temper]; norm_num)⟩

/-- C3: on a well-formed input (each block's empty-cell count equals its
missing-digit count) and with each block's shuffle a permutation of that
block's missing digits, every grid the generator returns is block-valid —
each block holds the digits 1–9 exactly once — with non-zero cells copied
unchanged and empty cells filled from the block's missing digits. -/
theorem claim_C3 (g : Grid) (ms : ℕ → ℕ → List ℕ)
    (hwf : ∀ bi < 3, ∀ bj < 3,
      (blockList g bi bj).count 0 = (missingList g bi bj).length)
    (hms : ∀ bi < 3, ∀ bj < 3, (ms bi bj).Perm (missingList g bi bj)) :
    (∀ bi < 3, ∀ bj < 3,
      (blockList (generate_grid g ms) bi bj).Perm [1, 2, 3, 4, 5, 6, 7, 8, 9]) ∧
    (∀ i j : ℕ, g i j ≠ 0 → generate_grid g ms i j = g i j) ∧
    (∀ i j : ℕ, i < 9 → j < 9 → g i j = 0 →
      generate_grid g ms i j ∈ missingList g (i / 3) (j / 3)) := by
  refine ⟨?_, fun i j h => generate_grid_ne_zero g ms i j h, ?_⟩
  · intro bi hbi bj hbj
    rw [blockList_generate]
    have hlen : (ms bi bj).length = (missingList g bi bj).length :=
      (hms bi hbi bj hbj).length_eq
    have hcnt : (blockList g bi bj).count 0 = (ms bi bj).length := by
      rw [hlen]
      exact hwf bi hbi bj hbj
    have hmult := fillList_multiset (blockList g bi bj) (ms bi bj) hcnt
    have hcoe : ((ms bi bj : List ℕ) : Multiset ℕ)
        = ((missingList g bi bj : List ℕ) : Multiset ℕ) :=
      Multiset.coe_eq_coe.2 (hms bi hbi bj hbj)
    have hfin := block_fill_complete (blockList g bi bj)
      (blockList_length g bi bj)
      (by simpa [missingList] using hwf bi hbi bj hbj)
    rw [← Multiset.coe_eq_coe]
    calc ((fillList (blockList g bi bj) (ms bi bj) : List ℕ) : Multiset ℕ)
        = ((blockList g bi bj).filter (fun c => c ≠ 0) : List ℕ)
            + ((ms bi bj : List ℕ) : Multiset ℕ) := hmult
      _ = ((blockList g bi bj).filter (fun c => c ≠ 0) : List ℕ)
            + ((missingList g bi bj : List ℕ) : Multiset ℕ) := by rw [hcoe]
      _ = (((List.range 9).map (· + 1) : List ℕ) : Multiset ℕ) := by
          simpa [missingList] using hfin
      _ = (([1, 2, 3, 4, 5, 6, 7, 8, 9] : List ℕ) : Multiset ℕ) := rfl
  · intro i j hi hj h0
    have hbi : i / 3 < 3 := by omega
    have hbj : j / 3 < 3 := by omega
    have hlen : (ms (i / 3) (j / 3)).length = (missingList g (i / 3) (j / 3)).length :=
      (hms _ hbi _ hbj).length_eq
    have hmem : generate_grid g ms i j ∈ ms (i / 3) (j / 3) := by
      simp only [generate_grid]
      apply fillList_getD_mem
      · rw [blockList_length]
        omega
      · rw [blockList_getD]
        exact h0
      · rw [hlen, ← hwf _ hbi _ hbj]
    exact ((hms _ hbi _ hbj).mem_iff).1 hmem

theorem claim_C3_witness :
    (blockList (generate_grid gZero msSorted) 0 0).Perm
      [1, 2, 3, 4, 5, 6, 7, 8, 9] :=
  (claim_C3 gZero msSorted (by decide) (by decide)).1 0 (by norm_num) 0 (by norm_num)

/-- C4: for a block-valid grid and a block with at least two non-fixed
cells, any grid produced by `swap_vals` is still block-valid — the
targeted block stays a permutation of 1–9 and every other block is left
untouched. -/
theorem claim_C4 (g : Grid) (bi bj : ℕ) (fixed : List (ℕ × ℕ)) (c1 c2 : ℕ)
    (hval : block_valid g) (hbi : bi < 3) (hbj : bj < 3)
    (hlen : 2 ≤ (unseenCoords g bi bj fixed).length) :
    ∀ g', swap_vals g bi bj fixed c1 c2 = some g' →
      block_valid g' ∧
        ∀ bi' bj' : ℕ, ¬(bi' = bi ∧ bj' = bj) →
          blockList g' bi' bj' = blockList g bi' bj' := by
  intro g' hsw
  obtain ⟨hperm, huntouched⟩ := swap_vals_blocks g bi bj fixed c1 c2 g' hsw
  refine ⟨?_, huntouched⟩
  intro bi' hbi' bj' hbj'
  by_cases he : bi' = bi ∧ bj' = bj
  · rw [he.1, he.2]
    exact hperm.trans (hval bi hbi bj hbj)
  · rw [huntouched bi' bj' he]
    exact hval bi' hbi' bj' hbj'

theorem claim_C4_witness :
    block_valid ((swap_vals gLatin 0 0 [] 0 1).getD gZero) ∧
      blockList ((swap_vals gLatin 0 0 [] 0 1).getD gZero) 1 1
        = blockList gLatin 1 1 := by
  have h := claim_C4 gLatin 0 0 [] 0 1 (by decide) (by norm_num) (by norm_num)
    (by decide) ((swap_vals gLatin 0 0 [] 0 1).getD gZero) rfl
  exact ⟨h.1, h.2 1 1 (by norm_num)⟩

/-- C5: in each trial the acceptance probability is
`exp((cost current − cost copy) / T)` with no clamp at 1; the proposal is
accepted exactly when it exceeds the uniform sample `r`; consequently a
cost-improving proposal makes the probability exceed 1 and (with `r < 1`)
is always accepted, and an accepted copy of cost 0 is returned at once as
`solved`. -/
theorem claim_C5 (fixed : List (ℕ × ℕ)) (T : ℝ) (g : Grid) (ch : TrialChoice)
    (gnew : Grid)
    (hsw : swap_vals g (ch.region.1 % 3) (ch.region.2 % 3) fixed ch.c1 ch.c2
      = some gnew) :
    (trial fixed T g ch =
      if ch.r < Real.exp (((cost_function g : ℝ) - (cost_function gnew : ℝ)) / T)
      then (if cost_function gnew = 0 then .solved gnew else .cont gnew)
      else .cont g) ∧
    (0 < T → ch.r < 1 → cost_function gnew < cost_function g →
      1 < Real.exp (((cost_function g : ℝ) - (cost_function gnew : ℝ)) / T) ∧
      trial fixed T g ch =
        (if cost_function gnew = 0 then .solved gnew else .cont gnew)) := by
  have h1 : trial fixed T g ch =
      if ch.r < Real.exp (((cost_function g : ℝ) - (cost_function gnew : ℝ)) / T)
      then (if cost_function gnew = 0 then .solved gnew else .cont gnew)
      else .cont g := by
    unfold trial
    rw [hsw]
  refine ⟨h1, ?_⟩
  intro hT hr himp
  have hexp : 1 < Real.exp (((cost_function g : ℝ) - (cost_function gnew : ℝ)) / T) := by
    rw [Real.one_lt_exp_iff]
    apply div_pos _ hT
    have hc : (cost_function gnew : ℝ) < (cost_function g : ℝ) := by exact_mod_cast himp
    linarith
  exact ⟨hexp, by rw [h1, if_pos (lt_trans hr hexp)]⟩

theorem claim_C5_witness :
    1 < Real.exp (((cost_function gBroken : ℝ)
        - (cost_function ((swap_vals gBroken 0 0 [] 0 4).getD gZero) : ℝ)) / 1) ∧
      trial [] 1 gBroken chRepair =
        (if cost_function ((swap_vals gBroken 0 0 [] 0 4).getD gZero) = 0
         then .solved ((swap_vals gBroken 0 0 [] 0 4).getD gZero)
         else .cont ((swap_vals gBroken 0 0 [] 0 4).getD gZero)) :=
  (claim_C5 [] 1 gBroken chRepair ((swap_vals gBroken 0 0 [] 0 4).getD gZero) rfl).2
    (by norm_num) (by norm_num [chRepair]) (by decide)

/-- C6 (refuting the claimed handling): drawing a block with fewer than 2
non-fixed cells is NOT handled by re-drawing — `swap_vals` fails (the
uncaught `ValueError` of `np.random.choice`, modelled as `none`), the
trial crashes, and the crash propagates out of the annealing loop as a
fatal result.  Concretely: the puzzle `pCorner` has its top-left block
fully given; on the block-valid candidate `gLatin` a trial drawing that
block fails, and the solve loop returns `crashed`. -/
theorem claim_C6 :
    swap_vals gLatin 0 0 (fixed_coords pCorner) 0 1 = none ∧
    (∀ T : ℝ, trial (fixed_coords pCorner) T gLatin chCorner = .crashed) ∧
    (∀ (T0 : ℝ) (n k : ℕ) (chss : ℕ → ℕ → TrialChoice) (g : Grid),
      chss k 0 = chCorner → 0.1 < temper T0 k →
      trial (fixed_coords pCorner) (temper T0 k) g chCorner = .crashed →
      loopAux (fixed_coords pCorner) chss T0 (n + 1) k g = .crashed) := by
  refine ⟨rfl, ?_, ?_⟩
  · intro T
    have h0 : swap_vals gLatin (chCorner.region.1 % 3) (chCorner.region.2 % 3)
        (fixed_coords pCorner) chCorner.c1 chCorner.c2 = none := rfl
    unfold trial
    rw [h0]
  · intro T0 n k chss g hch hT htrial
    rw [loopAux, if_pos hT]
    have hrange : List.range NUM_ITERATIONS = 0 :: (List.range 1999).map (· + 1) := by
      rw [NUM_ITERATIONS, List.range_succ_eq_map]
    have hinner : innerLoop (fixed_coords pCorner) (temper T0 k) g
        ((List.range NUM_ITERATIONS).map (chss k)) = .crashed := by
      rw [hrange, List.map_cons, hch, innerLoop, htrial]
    rw [hinner]

theorem claim_C6_witness :
    loopAux (fixed_coords pCorner) chssTriv 1 1 0 gLatin = .crashed :=
  claim_C6.2.2 1 0 0 chssTriv gLatin rfl (by rw [temper]; norm_num)
    (claim_C6.2.1 (temper 1 0))

/-- C7: for a fully pre-filled, already-valid input the validator passes
(hypothesis `hval`), the generator returns the grid unchanged, every cost
evaluation — including each of the seeding samples — yields 0 (so the
seeded temperature is 0), and `solve` returns at once with that cost-0
grid. -/
theorem claim_C7 (g : Grid) (seedMs : ℕ → ℕ → ℕ → List ℕ)
    (msW : ℕ → ℕ → List ℕ) (chss : ℕ → ℕ → TrialChoice)
    (hfull : ∀ i < 9, ∀ j < 9, g i j ≠ 0)
    (hval : valid_sudoku g = true) :
    (∀ (ms : ℕ → ℕ → List ℕ) (i j : ℕ), i < 9 → j < 9 →
      generate_grid g ms i j = g i j) ∧
    (∀ ms : ℕ → ℕ → List ℕ, cost_function (generate_grid g ms) = 0) ∧
    init_temperature g seedMs = 0 ∧
    solve g seedMs msW chss = .ok (generate_grid g msW) := by
  have hgen : ∀ ms : ℕ → ℕ → List ℕ, ∀ i j : ℕ, i < 9 → j < 9 →
      generate_grid g ms i j = g i j :=
    fun ms => generate_grid_of_full g hfull ms
  have hcost0 : cost_function g = 0 := cost_function_of_full_valid g hfull hval
  have hcost : ∀ ms : ℕ → ℕ → List ℕ, cost_function (generate_grid g ms) = 0 :=
    fun ms => by rw [cost_function_congr (hgen ms), hcost0]
  have htemp : init_temperature g seedMs = 0 := init_temperature_of_full g hfull seedMs
  exact ⟨hgen, hcost, htemp,
    solve_of_small_temp g seedMs msW chss (by rw [htemp]; norm_num)⟩

theorem claim_C7_witness :
    generate_grid gLatin msSorted 0 0 = gLatin 0 0 ∧
      cost_function (generate_grid gLatin msSorted) = 0 ∧
      init_temperature gLatin seedTriv = 0 ∧
      solve gLatin seedTriv msSorted chssTriv = .ok (generate_grid gLatin msSorted) := by
  have h := claim_C7 gLatin seedTriv msSorted chssTriv (by decide) (by decide)
  exact ⟨h.1 msSorted 0 0 (by norm_num) (by norm_num), h.2.1 msSorted, h.2.2.1, h.2.2.2⟩

/-- C10: whenever the seeded temperature is at most 0.1 the solver
performs zero annealing trials and returns the single freshly generated
candidate unchanged; in particular, for a fully-given (validated) puzzle
every one of the 100 seeding costs is 0 and the seeded temperature is 0,
so this is exactly what happens there. -/
theorem claim_C10 :
    (∀ (g : Grid) (seedMs : ℕ → ℕ → ℕ → List ℕ) (msW : ℕ → ℕ → List ℕ)
        (chss : ℕ → ℕ → TrialChoice),
      init_temperature g seedMs ≤ 0.1 →
      solve g seedMs msW chss = .ok (generate_grid g msW)) ∧
    (∀ (g : Grid) (seedMs : ℕ → ℕ → ℕ → List ℕ),
      (∀ i < 9, ∀ j < 9, g i j ≠ 0) → valid_sudoku g = true →
      (∀ t : ℕ, cost_function (generate_grid g (seedMs t)) = 0) ∧
        init_temperature g seedMs = 0) := by
  refine ⟨fun g seedMs msW chss h => solve_of_small_temp g seedMs msW chss h, ?_⟩
  intro g seedMs hfull hval
  have hcost0 : cost_function g = 0 := cost_function_of_full_valid g hfull hval
  refine ⟨?_, init_temperature_of_full g hfull seedMs⟩
  intro t
  rw [cost_function_congr (generate_grid_of_full g hfull (seedMs t)), hcost0]

theorem claim_C10_witness :
    solve gLatin seedTriv msTriv (fun _ _ => chRepair)
        = .ok (generate_grid gLatin msTriv) ∧
      cost_function (generate_grid gLatin (seedTriv 0)) = 0 ∧
      init_temperature gLatin seedTriv = 0 := by
  have h2 := claim_C10.2 gLatin seedTriv (by decide) (by decide)
  exact ⟨claim_C10.1 gLatin seedTriv msTriv (fun _ _ => chRepair)
    (by rw [h2.2]; norm_num), h2.1 0, h2.2⟩

end Sudoku
